import Mathlib

/-!
Verification of the wavefunction stability analysis module
(`pyscf/scf/stability.py`) against its specification.

The module is embedded shallowly:

* machine floats become `ℚ` (the claims under study are about control flow,
  thresholds and exact algebraic identities, not rounding);
* complex numbers become pairs `CQ := ℚ × ℚ` with explicit real part and
  conjugation;
* numpy vectors become `List ℚ`, numpy matrices become `Matrix (Fin m) (Fin n)`;
* the Davidson eigensolver (`pyscf.lib.davidson`), an external collaborator,
  is a parameter of every entry point: a function from the argument record
  the source hands it (operator, initial guess, preconditioner, tolerance,
  root count) to its result, which is a scalar/vector pair for `nroots == 1`
  and an ascending list of eigenpairs otherwise;
* the orbital-Hessian oracles `newton_ah.gen_g_hop_*` (external collaborators)
  are parameters `(g, hop, hdiag)`;
* Python exceptions become `Except PyErr`.
-/

namespace Stability

/-- A real (float) vector. -/
abbrev RVec := List ℚ

/-- A complex scalar: real and imaginary part. -/
abbrev CQ := ℚ × ℚ

/-- Real part of a complex scalar (`.real` in numpy). -/
def CQre (z : CQ) : ℚ := z.1

/-- Complex conjugate of a scalar (`.conj()` in numpy). -/
def CQconj (z : CQ) : CQ := (z.1, -z.2)

/-- Complex multiplication. -/
def cqMul (a b : CQ) : CQ := (a.1 * b.1 - a.2 * b.2, a.1 * b.2 + a.2 * b.1)

/-- Python exceptions raised by the embedded code. -/
inductive PyErr where
  /-- `raise NotImplementedError` -/
  | notImplementedError : PyErr
  /-- numpy's `ValueError` when an array of more than one element is used in a
  boolean context (`if e < -1e-5:` with `e` an eigenvalue array). -/
  | ambiguousTruthValue : PyErr
deriving DecidableEq

/-- The flooring of a divisor entry performed inside every preconditioner:
`hdiagd[abs(hdiagd)<1e-8] = 1e-8` replaces every entry of magnitude below
`1e-8` by `1e-8` before the division. -/
def floor8 (t : ℚ) : ℚ := if |t| < 1e-8 then 1e-8 else t

/-- The preconditioner closure built (identically) at every Davidson call
site of the source:

```
def precond(dx, e, x0):
    hdiagd = hdiag - e
    hdiagd[abs(hdiagd)<1e-8] = 1e-8
    return dx/hdiagd
```
-/
def mkPrecond (hdiag : RVec) : RVec → ℚ → RVec → RVec :=
  fun dx e _x0 => List.zipWith (fun x d => x / floor8 (d - e)) dx hdiag

/-- `numpy.argmin` over a vector: index of the first minimal entry. -/
def argminIdx (l : RVec) : Nat :=
  (List.range l.length).foldl
    (fun best i => if l.getD i 0 < l.getD best 0 then i else best) 0

/-- Initial guess of the internal channels
(`x0 = zeros_like(g); x0[g!=0] = 1./hdiag[g!=0]`, and
`if not with_symmetry: x0[argmin(hdiag)] = 1`).  `hdiag` here is the
already-doubled diagonal, as at the source call sites. -/
def initGuessG (g hdiag : RVec) (with_symmetry : Bool) : RVec :=
  let x0 := List.zipWith (fun gi di => if gi ≠ 0 then 1 / di else 0) g hdiag
  if with_symmetry then x0 else x0.set (argminIdx hdiag) 1

/-- Initial guess of `dhf_stability`: same as `initGuessG` but the
`x0[argmin(hdiag)] = 1` write is unconditional in the source. -/
def initGuessDhf (g hdiag : RVec) : RVec :=
  let x0 := List.zipWith (fun gi di => if gi ≠ 0 then 1 / di else 0) g hdiag
  x0.set (argminIdx hdiag) 1

/-- Initial guess of the external channels
(`x0 = zeros_like(hdiag); x0[hdiag>1e-5] = 1./hdiag[hdiag>1e-5]`, and
`if not with_symmetry: x0[argmin(hdiag)] = 1`). -/
def initGuessH (hdiag : RVec) (with_symmetry : Bool) : RVec :=
  let x0 := hdiag.map (fun d => if 1e-5 < d then 1 / d else 0)
  if with_symmetry then x0 else x0.set (argminIdx hdiag) 1

/-- The argument record each entry point hands to `lib.davidson`:
operator, initial guess, preconditioner, convergence tolerance, root count. -/
structure DavArgs where
  aop : RVec → RVec
  x0 : RVec
  pc : RVec → ℚ → RVec → RVec
  tol : ℚ
  nroots : Nat

/-- Result of `lib.davidson`: a scalar eigenvalue with its eigenvector when
`nroots == 1`, otherwise the ascending list of eigenvalues with the matching
list of eigenvectors. -/
inductive DavResult where
  | single (e : ℚ) (v : RVec) : DavResult
  | multi (es : List ℚ) (vs : List RVec) : DavResult
deriving DecidableEq

/-- The Davidson solver as an opaque external collaborator. -/
abbrev Dav := DavArgs → DavResult

/-- The unwrap `if nroots != 1: e, v = e[0], v[0]` performed after each
Davidson call (except in `dhf_stability`).  For `nroots != 1` the element at
index 0 of the ascending sequence is selected; a scalar result is passed
through (that case cannot arise from an honest solver). -/
def davUnwrap (nroots : Nat) (r : DavResult) : DavResult :=
  if nroots ≠ 1 then
    match r with
    | .multi es vs => .single (es.headD 0) (vs.headD [])
    | .single e v => .single e v
  else r

lemma getD_zipWith (f : ℚ → ℚ → ℚ) :
    ∀ (a b : List ℚ) (i : Nat), i < a.length → i < b.length →
      (List.zipWith f a b).getD i 0 = f (a.getD i 0) (b.getD i 0) := by
  intro a
  induction a with
  | nil => intro b i h; simp at h
  | cons x xs ih =>
    intro b i ha hb
    cases b with
    | nil => simp at hb
    | cons y ys =>
      cases i with
      | zero => simp [List.getD]
      | succ n =>
        simp only [List.zipWith, List.getD_cons_succ]
        exact ih ys n (by simpa using ha) (by simpa using hb)

lemma floor8_mag (t : ℚ) : 1e-8 ≤ |floor8 t| := by
  by_cases h : |t| < 1e-8
  · simp only [floor8, if_pos h]
    rw [abs_of_pos (by norm_num)]
  · simp only [floor8, if_neg h]
    exact le_of_not_lt h

/-- Claim C8: every preconditioner built by the solver adapter divides the
residual entrywise by `(diagonal entry - current eigenvalue estimate)`
floored so that the divisor's magnitude is at least `1e-8`; the division is
never by a quantity of magnitude below `1e-8`. -/
theorem precond_divisor_floored (hdiag dx x0 : RVec) (e : ℚ) (i : Nat)
    (hdx : i < dx.length) (hhd : i < hdiag.length) :
    (mkPrecond hdiag dx e x0).getD i 0 =
      dx.getD i 0 / floor8 (hdiag.getD i 0 - e) ∧
    1e-8 ≤ |floor8 (hdiag.getD i 0 - e)| := by
  constructor
  · exact getD_zipWith _ dx hdiag i hdx hhd
  · exact floor8_mag _

/-- Witness for C8 at a concrete input. -/
theorem precond_divisor_floored_witness :
    (mkPrecond [1] [2] 0 []).getD 0 0 = (2 : ℚ) / floor8 ((1 : ℚ) - 0) ∧
    1e-8 ≤ |floor8 ((1 : ℚ) - 0)| := by
  have h := precond_divisor_floored [1] [2] [] 0 0 (by decide) (by decide)
  simpa using h

/-! ### The stabilize-and-reoptimize driver (`stable_opt_internal`) -/

/-- Return shape of `mf.stability(return_status=True)`: a 4-tuple
`(mo_i, mo_e, stable_i, stable_e)` for RHF/UHF/ROHF, a 2-tuple
`(mo, stable)` for GHF/DHF. -/
inductive StabStatusRes (MO : Type) where
  | four (mo_i mo_e : MO) (stable_i stable_e : Bool) : StabStatusRes MO
  | two (mo : MO) (stable : Bool) : StabStatusRes MO

/-- The capabilities of the external SCF collaborator `mf` used by the
driver: `mf.stability(return_status=True)`, `mf.make_rdm1(mo1, mf.mo_occ)`
and the re-optimization entry point `mf.run(dm1)`. -/
structure SCFOps (α MO DM : Type) where
  stability : α → StabStatusRes MO
  make_rdm1 : α → MO → DM
  run : α → DM → α

/-- `_get_internal_stability_status(mf)`: project the internal pair
`(mo_internal, stable_internal)` out of either return shape. -/
def get_internal_stability_status {α MO DM : Type} (ops : SCFOps α MO DM)
    (mf : α) : MO × Bool :=
  match ops.stability mf with
  | .four mo_i _ stable_i _ => (mo_i, stable_i)
  | .two mo stable => (mo, stable)

/-- The `while (not stable and cyc < max_attempt)` loop of
`stable_opt_internal`, instrumented with the attempt counter `cyc` (which
the source increments at the end of each iteration).  The returned pair is
the final SCF solution together with the final counter value. -/
def stable_opt_loop {α MO DM : Type} (ops : SCFOps α MO DM)
    (max_attempt : Nat) (mf : α) (mo1 : MO) (stable : Bool) (cyc : Nat) :
    α × Nat :=
  if h : stable = false ∧ cyc < max_attempt then
    let dm1 := ops.make_rdm1 mf mo1
    let mf2 := ops.run mf dm1
    let p := get_internal_stability_status ops mf2
    stable_opt_loop ops max_attempt mf2 p.1 p.2 (cyc + 1)
  else
    (mf, cyc)
termination_by max_attempt - cyc
decreasing_by omega

/-- `stable_opt_internal(mf, max_attempt)`: query internal stability, loop
while unstable and under budget, and return the last SCF solution whether or
not it is stable (budget exhaustion is only logged). -/
def stable_opt_internal {α MO DM : Type} (ops : SCFOps α MO DM) (mf : α)
    (max_attempt : Nat) : α :=
  let p := get_internal_stability_status ops mf
  (stable_opt_loop ops max_attempt mf p.1 p.2 0).1

lemma stable_opt_loop_cyc_le {α MO DM : Type} (ops : SCFOps α MO DM)
    (max_attempt : Nat) :
    ∀ (fuel : Nat) (mf : α) (mo1 : MO) (stable : Bool) (cyc : Nat),
      max_attempt - cyc ≤ fuel → cyc ≤ max_attempt →
      (stable_opt_loop ops max_attempt mf mo1 stable cyc).2 ≤ max_attempt := by
  intro fuel
  induction fuel with
  | zero =>
    intro mf mo1 stable cyc hfuel hcyc
    rw [stable_opt_loop]
    have : ¬ (stable = false ∧ cyc < max_attempt) := by omega
    simp only [this, dite_false]
    exact hcyc
  | succ n ih =>
    intro mf mo1 stable cyc hfuel hcyc
    rw [stable_opt_loop]
    by_cases h : stable = false ∧ cyc < max_attempt
    · simp only [h, dite_true]
      exact ih _ _ _ _ (by omega) (by omega)
    · simp only [h, dite_false]
      exact hcyc

lemma stable_opt_loop_exit {α MO DM : Type} (ops : SCFOps α MO DM)
    (max_attempt : Nat) (mf : α) (mo1 : MO) (stable : Bool) (cyc : Nat)
    (h : stable = true ∨ max_attempt ≤ cyc) :
    stable_opt_loop ops max_attempt mf mo1 stable cyc = (mf, cyc) := by
  rw [stable_opt_loop]
  have : ¬ (stable = false ∧ cyc < max_attempt) := by
    rcases h with h | h
    · simp [h]
    · omega
  simp [this]

/-- Claim C3: `stable_opt_internal` performs at most `max_attempt`
re-optimization attempts — the final value of the attempt counter (which
counts one increment per executed loop body, i.e. per `mf.run` call) never
exceeds `max_attempt`; the loop body is entered only while the internal
verdict is unstable and the counter is below `max_attempt`; and the driver
returns the last obtained SCF solution unconditionally (the first component
of the loop state, whether or not it is stable — no error is ever raised). -/
theorem stable_opt_internal_budget {α MO DM : Type} (ops : SCFOps α MO DM)
    (mf : α) (max_attempt : Nat) (mo1 : MO) (stable : Bool) (cyc : Nat)
    (hcyc : cyc ≤ max_attempt) :
    (stable_opt_loop ops max_attempt mf mo1 stable cyc).2 ≤ max_attempt ∧
    (stable = true ∨ max_attempt ≤ cyc →
      stable_opt_loop ops max_attempt mf mo1 stable cyc = (mf, cyc)) ∧
    stable_opt_internal ops mf max_attempt =
      (stable_opt_loop ops max_attempt mf
        (get_internal_stability_status ops mf).1
        (get_internal_stability_status ops mf).2 0).1 := by
  refine ⟨stable_opt_loop_cyc_le ops max_attempt (max_attempt - cyc)
    mf mo1 stable cyc (le_refl _) hcyc, ?_, rfl⟩
  intro h
  exact stable_opt_loop_exit ops max_attempt mf mo1 stable cyc h

/-! ### Orbital rotation generator (`_rotate_mo`) -/

/-- Modelled from the spec: `newton_ah.expmat` is code of this repository
that is not under `src/` (only its caller `_rotate_mo` is).  Per the spec
(§4.4) it is "a numerically stable general matrix exponential", i.e. the
matrix exponential `exp(generator)`. -/
noncomputable def expmat {n : Nat} (a : Matrix (Fin n) (Fin n) ℝ) :
    Matrix (Fin n) (Fin n) ℝ :=
  NormedSpace.exp ℝ a

/-- Modelled from the spec: `hf.unpack_uniq_var` is code of this repository
that is not under `src/` (only its caller `_rotate_mo` is).  Per the spec
(§4.4, §3 "Rotated orbital set") it reconstructs the rotation-generator
matrix by scattering the flat eigenvector's entries into the
(virtual, occupied) block — row-major over virtual index then occupied
index, occupied meaning occupation `> 0` — and forming the antisymmetric
completion (the negative transpose fills the (occupied, virtual) block;
the coefficients here are real). -/
def unpack_uniq_var {n : Nat} (mo_occ : Fin n → ℚ) (dx : RVec) :
    Matrix (Fin n) (Fin n) ℝ :=
  let occidx := (List.finRange n).filter (fun p => decide (0 < mo_occ p))
  let viridx := (List.finRange n).filter (fun p => decide (mo_occ p = 0))
  let x1 : Matrix (Fin n) (Fin n) ℝ := fun p q =>
    match viridx.findIdx? (fun r => decide (r = p)),
          occidx.findIdx? (fun r => decide (r = q)) with
    | some i, some j => ((dx.getD (i * occidx.length + j) 0 : ℚ) : ℝ)
    | _, _ => 0
  x1 - x1.transpose

/-- `_rotate_mo(mo_coeff, mo_occ, dx)` (the leading underscore of the source
name is not a legal Lean identifier): unpack the eigenvector into the
antisymmetric generator, exponentiate, right-multiply the coefficients. -/
noncomputable def rotate_mo {nao n : Nat}
    (mo_coeff : Matrix (Fin nao) (Fin n) ℝ) (mo_occ : Fin n → ℚ)
    (dx : RVec) : Matrix (Fin nao) (Fin n) ℝ :=
  let dr := unpack_uniq_var mo_occ dx
  let u := expmat dr
  mo_coeff * u

lemma getD_replicate_zero (m k : Nat) :
    (List.replicate m (0 : ℚ)).getD k 0 = 0 := by
  induction m generalizing k with
  | zero => simp [List.getD]
  | succ i ih =>
    cases k with
    | zero => simp [List.replicate]
    | succ j =>
      simp only [List.replicate, List.getD_cons_succ]
      exact ih j

lemma unpack_uniq_var_zero {n : Nat} (mo_occ : Fin n → ℚ) (m : Nat) :
    unpack_uniq_var mo_occ (List.replicate m 0) = 0 := by
  unfold unpack_uniq_var
  have hx1 : (fun p q =>
      match ((List.finRange n).filter
              (fun r => decide (mo_occ r = 0))).findIdx? (fun r => decide (r = p)),
            ((List.finRange n).filter
              (fun r => decide (0 < mo_occ r))).findIdx? (fun r => decide (r = q)) with
      | some i, some j =>
        (((List.replicate m (0 : ℚ)).getD
            (i * ((List.finRange n).filter (fun r => decide (0 < mo_occ r))).length + j)
            0 : ℚ) : ℝ)
      | _, _ => (0 : ℝ)) = (0 : Matrix (Fin n) (Fin n) ℝ) := by
    funext p q
    cases hv : ((List.finRange n).filter
        (fun r => decide (mo_occ r = 0))).findIdx? (fun r => decide (r = p)) with
    | none => simp [Matrix.zero_apply]
    | some i =>
      cases ho : ((List.finRange n).filter
          (fun r => decide (0 < mo_occ r))).findIdx? (fun r => decide (r = q)) with
      | none => simp [Matrix.zero_apply]
      | some j => simp [getD_replicate_zero, Matrix.zero_apply]
  simp only [hx1, Matrix.transpose_zero, sub_zero]

/-- Claim C9: applying the orbital rotation generator with the all-zero
eigenvector returns the original coefficient matrix unchanged: the scattered
generator is the zero matrix and its matrix exponential is the identity. -/
theorem rotate_mo_zero_eigenvector {nao n : Nat}
    (mo_coeff : Matrix (Fin nao) (Fin n) ℝ) (mo_occ : Fin n → ℚ) (m : Nat) :
    rotate_mo mo_coeff mo_occ (List.replicate m 0) = mo_coeff := by
  simp only [rotate_mo, expmat, unpack_uniq_var_zero, NormedSpace.exp_zero,
    Matrix.mul_one]

/-- Witness for C3 on a concrete toy SCF collaborator. -/
theorem stable_opt_internal_budget_witness :
    (stable_opt_loop ⟨fun n => .two () (decide (2 ≤ n)), fun _ _ => (), fun n _ => n + 1⟩
      10 0 () false 0).2 ≤ 10 := by
  have h := stable_opt_internal_budget
    (⟨fun n => .two () (decide (2 ≤ n)), fun _ _ => (), fun n _ => n + 1⟩ :
      SCFOps Nat Unit Unit) 0 10 () false 0 (by decide)
  exact h.1

/-! ### Internal-channel entry points

Each entry point consumes the `(g, hop, hdiag)` triple produced by the
external orbital-Hessian oracle (`newton_ah.gen_g_hop_<ref>`, a collaborator
outside this module) and the Davidson solver, both as parameters.  The
source returns `mo` alone or `(mo, stable)` depending on `return_status`;
the embeddings return the full pair, of which `return_status` selects the
projection. -/

/-- The Davidson argument record built identically by `rhf_internal`,
`rohf_internal`, `uhf_internal` and the first call of `ghf_real`:
`hdiag *= 2`; `hessian_x = lambda x: hop(x).real * 2`; guess from `g` and
the doubled diagonal; preconditioner over the doubled diagonal. -/
def gen_internal_davargs (g : RVec) (hop : RVec → List CQ) (hdiag : RVec)
    (with_symmetry : Bool) (nroots : Nat) (tol : ℚ) : DavArgs :=
  let hdiag2 := hdiag.map (fun d => d * 2)
  ⟨fun x => (hop x).map (fun c => CQre c * 2),
   initGuessG g hdiag2 with_symmetry, mkPrecond hdiag2, tol, nroots⟩

/-- `rhf_internal(mf, ...)`, lines 309-344 of the source. -/
noncomputable def rhf_internal {nao n : Nat} (g : RVec)
    (hop : RVec → List CQ) (hdiag : RVec) (dav : Dav)
    (mo_coeff : Matrix (Fin nao) (Fin n) ℝ) (mo_occ : Fin n → ℚ)
    (with_symmetry : Bool) (nroots : Nat) (tol : ℚ) :
    Except PyErr (Matrix (Fin nao) (Fin n) ℝ × Bool) :=
  match davUnwrap nroots
      (dav (gen_internal_davargs g hop hdiag with_symmetry nroots tol)) with
  | .multi _ _ => .error .ambiguousTruthValue
  | .single e v =>
    let stable := ! decide (e < -1e-5)
    let mo := if stable then mo_coeff else rotate_mo mo_coeff mo_occ v
    .ok (mo, stable)

/-- `rohf_internal(mf, ...)`, lines 457-487: same wrapping around the
`gen_g_hop_rohf` oracle. -/
noncomputable def rohf_internal {nao n : Nat} (g : RVec)
    (hop : RVec → List CQ) (hdiag : RVec) (dav : Dav)
    (mo_coeff : Matrix (Fin nao) (Fin n) ℝ) (mo_occ : Fin n → ℚ)
    (with_symmetry : Bool) (nroots : Nat) (tol : ℚ) :
    Except PyErr (Matrix (Fin nao) (Fin n) ℝ × Bool) :=
  match davUnwrap nroots
      (dav (gen_internal_davargs g hop hdiag with_symmetry nroots tol)) with
  | .multi _ _ => .error .ambiguousTruthValue
  | .single e v =>
    let stable := ! decide (e < -1e-5)
    let mo := if stable then mo_coeff else rotate_mo mo_coeff mo_occ v
    .ok (mo, stable)

/-- `uhf_internal(mf, ...)`, lines 493-526: the eigenvector is split at
`nocca * nvira` (alpha virtual-occupied block size) and each spin block is
rotated separately in the unstable case. -/
noncomputable def uhf_internal {nao n : Nat} (g : RVec)
    (hop : RVec → List CQ) (hdiag : RVec) (dav : Dav)
    (mo_coeff : Matrix (Fin nao) (Fin n) ℝ × Matrix (Fin nao) (Fin n) ℝ)
    (mo_occ : (Fin n → ℚ) × (Fin n → ℚ))
    (with_symmetry : Bool) (nroots : Nat) (tol : ℚ) :
    Except PyErr
      ((Matrix (Fin nao) (Fin n) ℝ × Matrix (Fin nao) (Fin n) ℝ) × Bool) :=
  match davUnwrap nroots
      (dav (gen_internal_davargs g hop hdiag with_symmetry nroots tol)) with
  | .multi _ _ => .error .ambiguousTruthValue
  | .single e v =>
    let stable := ! decide (e < -1e-5)
    if stable then .ok (mo_coeff, stable)
    else
      let nocca := (List.finRange n).countP (fun p => decide (0 < mo_occ.1 p))
      let nvira := (List.finRange n).countP (fun p => decide (mo_occ.1 p = 0))
      .ok ((rotate_mo mo_coeff.1 mo_occ.1 (v.take (nocca * nvira)),
            rotate_mo mo_coeff.2 mo_occ.2 (v.drop (nocca * nvira))), stable)

/-- Davidson arguments of the real→complex block of `ghf_real`
(lines 822-831): the raw `hop_real2complex` operator, guess and
preconditioner from its (unscaled) diagonal. -/
def ghf_r2c_davargs (hop_r2c : RVec → RVec) (hdiag_r2c : RVec)
    (with_symmetry : Bool) (nroots : Nat) (tol : ℚ) : DavArgs :=
  ⟨hop_r2c, initGuessH hdiag_r2c with_symmetry, mkPrecond hdiag_r2c,
   tol, nroots⟩

/-- `ghf_real(mf, ...)`, lines 794-840: internal analysis decides `mo` and
`stable`; the subsequent real→complex analysis only produces a log line
(its verdict `stable_r2c` is dropped; the source's dead reassignment
`e2, v = e2[0], v[0]` at line 834 touches only values unused afterwards). -/
noncomputable def ghf_real {nao n : Nat} (g : RVec)
    (hop : RVec → List CQ) (hdiag : RVec)
    (hop_r2c : RVec → RVec) (hdiag_r2c : RVec) (dav : Dav)
    (mo_coeff : Matrix (Fin nao) (Fin n) ℝ) (mo_occ : Fin n → ℚ)
    (with_symmetry : Bool) (nroots : Nat) (tol : ℚ) :
    Except PyErr (Matrix (Fin nao) (Fin n) ℝ × Bool) :=
  match davUnwrap nroots
      (dav (gen_internal_davargs g hop hdiag with_symmetry nroots tol)) with
  | .multi _ _ => .error .ambiguousTruthValue
  | .single e v =>
    let stable := ! decide (e < -1e-5)
    let mo := if stable then mo_coeff else rotate_mo mo_coeff mo_occ v
    match davUnwrap nroots
        (dav (ghf_r2c_davargs hop_r2c hdiag_r2c with_symmetry nroots tol)) with
    | .multi _ _ => .error .ambiguousTruthValue
    | .single e2 _ =>
      let _stable_r2c := ! decide (e2 < -1e-5)
      .ok (mo, stable)

/-- Davidson arguments of `ghf_complex` (lines 845-855): the local
`with_symmetry = True` makes the symmetry-breaking guess override dead. -/
def ghf_complex_davargs (hop : RVec → RVec) (hdiag : RVec)
    (nroots : Nat) (tol : ℚ) : DavArgs :=
  ⟨hop, initGuessH hdiag true, mkPrecond hdiag, tol, nroots⟩

/-- `ghf_complex(mf, ...)`, lines 842-869, over the
`_gen_hop_ghf_complex_internal` operator/diagonal (parameters here). -/
noncomputable def ghf_complex {nao n : Nat} (hop : RVec → RVec)
    (hdiag : RVec) (dav : Dav)
    (mo_coeff : Matrix (Fin nao) (Fin n) ℝ) (mo_occ : Fin n → ℚ)
    (nroots : Nat) (tol : ℚ) :
    Except PyErr (Matrix (Fin nao) (Fin n) ℝ × Bool) :=
  match davUnwrap nroots (dav (ghf_complex_davargs hop hdiag nroots tol)) with
  | .multi _ _ => .error .ambiguousTruthValue
  | .single e v =>
    let stable := ! decide (e < -1e-5)
    let mo := if stable then mo_coeff else rotate_mo mo_coeff mo_occ v
    .ok (mo, stable)

/-- Davidson arguments of `dhf_stability` (lines 282-294): as the internal
channels, except that `x0[argmin(hdiag)] = 1` is unconditional. -/
def dhf_davargs (g : RVec) (hop : RVec → List CQ) (hdiag : RVec)
    (nroots : Nat) (tol : ℚ) : DavArgs :=
  let hdiag2 := hdiag.map (fun d => d * 2)
  ⟨fun x => (hop x).map (fun c => CQre c * 2),
   initGuessDhf g hdiag2, mkPrecond hdiag2, tol, nroots⟩

/-- `dhf_stability(mf, ...)`, lines 258-307.  Unlike every other entry
point, the source performs no `if nroots != 1: e, v = e[0], v[0]` unwrap
after `lib.davidson`; for a multi-root result the subsequent
`if e < -1e-5:` uses a whole eigenvalue array in a boolean context, which
raises numpy's ValueError (ambiguous truth value). -/
noncomputable def dhf_stability {nao n : Nat} (g : RVec)
    (hop : RVec → List CQ) (hdiag : RVec) (dav : Dav)
    (mo_coeff : Matrix (Fin nao) (Fin n) ℝ) (mo_occ : Fin n → ℚ)
    (nroots : Nat) (tol : ℚ) :
    Except PyErr (Matrix (Fin nao) (Fin n) ℝ × Bool) :=
  match dav (dhf_davargs g hop hdiag nroots tol) with
  | .multi _ _ => .error .ambiguousTruthValue
  | .single e v =>
    if decide (e < -1e-5) then .ok (rotate_mo mo_coeff mo_occ v, false)
    else .ok (mo_coeff, true)

lemma rhf_internal_char {nao n : Nat} (g : RVec) (hop : RVec → List CQ)
    (hdiag : RVec) (dav : Dav) (mo_coeff : Matrix (Fin nao) (Fin n) ℝ)
    (mo_occ : Fin n → ℚ) (ws : Bool) (nroots : Nat) (tol : ℚ) (e : ℚ)
    (v : RVec)
    (h : davUnwrap nroots (dav (gen_internal_davargs g hop hdiag ws nroots tol)) =
      .single e v) :
    rhf_internal g hop hdiag dav mo_coeff mo_occ ws nroots tol =
      .ok (if e < -1e-5 then rotate_mo mo_coeff mo_occ v else mo_coeff,
        ! decide (e < -1e-5)) := by
  simp only [rhf_internal, h]
  by_cases hc : e < -1e-5 <;> simp [hc]

lemma rohf_internal_char {nao n : Nat} (g : RVec) (hop : RVec → List CQ)
    (hdiag : RVec) (dav : Dav) (mo_coeff : Matrix (Fin nao) (Fin n) ℝ)
    (mo_occ : Fin n → ℚ) (ws : Bool) (nroots : Nat) (tol : ℚ) (e : ℚ)
    (v : RVec)
    (h : davUnwrap nroots (dav (gen_internal_davargs g hop hdiag ws nroots tol)) =
      .single e v) :
    rohf_internal g hop hdiag dav mo_coeff mo_occ ws nroots tol =
      .ok (if e < -1e-5 then rotate_mo mo_coeff mo_occ v else mo_coeff,
        ! decide (e < -1e-5)) := by
  simp only [rohf_internal, h]
  by_cases hc : e < -1e-5 <;> simp [hc]

lemma uhf_internal_char {nao n : Nat} (g : RVec) (hop : RVec → List CQ)
    (hdiag : RVec) (dav : Dav)
    (mo_coeff : Matrix (Fin nao) (Fin n) ℝ × Matrix (Fin nao) (Fin n) ℝ)
    (mo_occ : (Fin n → ℚ) × (Fin n → ℚ)) (ws : Bool) (nroots : Nat)
    (tol : ℚ) (e : ℚ) (v : RVec)
    (h : davUnwrap nroots (dav (gen_internal_davargs g hop hdiag ws nroots tol)) =
      .single e v) :
    uhf_internal g hop hdiag dav mo_coeff mo_occ ws nroots tol =
      .ok (if e < -1e-5 then
          (rotate_mo mo_coeff.1 mo_occ.1
            (v.take ((List.finRange n).countP (fun p => decide (0 < mo_occ.1 p)) *
              (List.finRange n).countP (fun p => decide (mo_occ.1 p = 0)))),
           rotate_mo mo_coeff.2 mo_occ.2
            (v.drop ((List.finRange n).countP (fun p => decide (0 < mo_occ.1 p)) *
              (List.finRange n).countP (fun p => decide (mo_occ.1 p = 0)))))
        else mo_coeff,
        ! decide (e < -1e-5)) := by
  simp only [uhf_internal, h]
  by_cases hc : e < -1e-5 <;> simp [hc]

lemma ghf_real_char {nao n : Nat} (g : RVec) (hop : RVec → List CQ)
    (hdiag : RVec) (hop_r2c : RVec → RVec) (hdiag_r2c : RVec) (dav : Dav)
    (mo_coeff : Matrix (Fin nao) (Fin n) ℝ) (mo_occ : Fin n → ℚ)
    (ws : Bool) (nroots : Nat) (tol : ℚ) (e e2 : ℚ) (v v2 : RVec)
    (h : davUnwrap nroots (dav (gen_internal_davargs g hop hdiag ws nroots tol)) =
      .single e v)
    (h2 : davUnwrap nroots (dav (ghf_r2c_davargs hop_r2c hdiag_r2c ws nroots tol)) =
      .single e2 v2) :
    ghf_real g hop hdiag hop_r2c hdiag_r2c dav mo_coeff mo_occ ws nroots tol =
      .ok (if e < -1e-5 then rotate_mo mo_coeff mo_occ v else mo_coeff,
        ! decide (e < -1e-5)) := by
  simp only [ghf_real, h, h2]
  by_cases hc : e < -1e-5 <;> simp [hc]

lemma ghf_complex_char {nao n : Nat} (hop : RVec → RVec) (hdiag : RVec)
    (dav : Dav) (mo_coeff : Matrix (Fin nao) (Fin n) ℝ)
    (mo_occ : Fin n → ℚ) (nroots : Nat) (tol : ℚ) (e : ℚ) (v : RVec)
    (h : davUnwrap nroots (dav (ghf_complex_davargs hop hdiag nroots tol)) =
      .single e v) :
    ghf_complex hop hdiag dav mo_coeff mo_occ nroots tol =
      .ok (if e < -1e-5 then rotate_mo mo_coeff mo_occ v else mo_coeff,
        ! decide (e < -1e-5)) := by
  simp only [ghf_complex, h]
  by_cases hc : e < -1e-5 <;> simp [hc]

lemma dhf_stability_char {nao n : Nat} (g : RVec) (hop : RVec → List CQ)
    (hdiag : RVec) (dav : Dav) (mo_coeff : Matrix (Fin nao) (Fin n) ℝ)
    (mo_occ : Fin n → ℚ) (nroots : Nat) (tol : ℚ) (e : ℚ) (v : RVec)
    (h : dav (dhf_davargs g hop hdiag nroots tol) = .single e v) :
    dhf_stability g hop hdiag dav mo_coeff mo_occ nroots tol =
      .ok (if e < -1e-5 then rotate_mo mo_coeff mo_occ v else mo_coeff,
        ! decide (e < -1e-5)) := by
  simp only [dhf_stability, h]
  by_cases hc : e < -1e-5 <;> simp [hc]

/-! ### External-channel entry points

`rhf_external` / `uhf_external` unpack
`hop1, hdiag1, hop2, hdiag2 = _gen_hop_<ref>_external(mf, with_symmetry)`;
the four components are parameters here (the builders' internal algebra is
embedded separately below for the symmetry-projection claim). -/

/-- Davidson arguments of the first (real→complex) call of `rhf_external`
(lines 422-430). -/
def rhfExtArgs1 (hop1 : RVec → RVec) (hdiag1 : RVec) (with_symmetry : Bool)
    (nroots : Nat) (tol : ℚ) : DavArgs :=
  ⟨hop1, initGuessH hdiag1 with_symmetry, mkPrecond hdiag1, tol, nroots⟩

/-- Davidson arguments of the second (RHF→UHF) call of `rhf_external`
(lines 437-442): the initial guess is the eigenvector `v1` of the first
call (`x0 = v1`). -/
def rhfExtArgs2 (hop2 : RVec → RVec) (hdiag2 : RVec) (v1 : RVec)
    (nroots : Nat) (tol : ℚ) : DavArgs :=
  ⟨hop2, v1, mkPrecond hdiag2, tol, nroots⟩

/-- `rhf_external(mf, ...)`, lines 417-455: the real→complex verdict
`stable1` is only logged; the returned pair of orbital sets and the
returned status come from the RHF→UHF channel alone. -/
noncomputable def rhf_external {nao n : Nat} (hop1 : RVec → RVec)
    (hdiag1 : RVec) (hop2 : RVec → RVec) (hdiag2 : RVec) (dav : Dav)
    (mo_coeff : Matrix (Fin nao) (Fin n) ℝ) (mo_occ : Fin n → ℚ)
    (with_symmetry : Bool) (nroots : Nat) (tol : ℚ) :
    Except PyErr
      ((Matrix (Fin nao) (Fin n) ℝ × Matrix (Fin nao) (Fin n) ℝ) × Bool) :=
  match davUnwrap nroots
      (dav (rhfExtArgs1 hop1 hdiag1 with_symmetry nroots tol)) with
  | .multi _ _ => .error .ambiguousTruthValue
  | .single e1 v1 =>
    let _stable1 := ! decide (e1 < -1e-5)
    match davUnwrap nroots (dav (rhfExtArgs2 hop2 hdiag2 v1 nroots tol)) with
    | .multi _ _ => .error .ambiguousTruthValue
    | .single e3 v3 =>
      let stable := ! decide (e3 < -1e-5)
      let mo := if stable then (mo_coeff, mo_coeff)
        else (rotate_mo mo_coeff mo_occ v3, mo_coeff)
      .ok (mo, stable)

/-- `scipy.linalg.block_diag(moa, mob)`. -/
def blockDiag2 {nao nmo : Nat} (moa mob : Matrix (Fin nao) (Fin nmo) ℝ) :
    Matrix (Fin (nao + nao)) (Fin (nmo + nmo)) ℝ :=
  fun i j =>
    if hi : i.val < nao then
      if hj : j.val < nmo then moa ⟨i.val, hi⟩ ⟨j.val, hj⟩ else 0
    else
      if hj : j.val < nmo then 0
      else mob ⟨i.val - nao, by omega⟩ ⟨j.val - nmo, by omega⟩

/-- The column reordering
`hstack([mo[:,:nocca], mo[:,nmo:nmo+noccb], mo[:,nocca:nmo], mo[:,nmo+noccb:]])`
of `uhf_external` (lines 679-680), as the map from new column index to old
column index (the last block is the identity since `nmo = nocca + nvira`). -/
def uhfExtCol (nmo nocca noccb : Nat) (j : Fin (nmo + nmo)) :
    Fin (nmo + nmo) :=
  if j.val < nocca then j
  else if j.val < nocca + noccb then
    (if h : j.val - nocca + nmo < nmo + nmo then ⟨j.val - nocca + nmo, h⟩
     else j)
  else if j.val < nmo + noccb then
    (if h : j.val - noccb < nmo + nmo then ⟨j.val - noccb, h⟩ else j)
  else j

/-- The unstable branch of `uhf_external` (lines 665-680): scatter the
eigenvector into the alpha-virtual×beta-occupied and
beta-virtual×alpha-occupied blocks of the doubled orbital space,
antisymmetrize, exponentiate, right-multiply the block-diagonal
coefficients and reorder columns to occupied-before-virtual. -/
noncomputable def uhf_external_rotate {nao nmo : Nat}
    (moa mob : Matrix (Fin nao) (Fin nmo) ℝ) (occa occb : Fin nmo → ℚ)
    (v : RVec) : Matrix (Fin (nao + nao)) (Fin (nmo + nmo)) ℝ :=
  let occidxa := (List.finRange nmo).filter (fun p => decide (0 < occa p))
  let viridxa := (List.finRange nmo).filter (fun p => decide (occa p = 0))
  let occidxb := (List.finRange nmo).filter (fun p => decide (0 < occb p))
  let viridxb := (List.finRange nmo).filter (fun p => decide (occb p = 0))
  let nocca := occidxa.length
  let noccb := occidxb.length
  let nvira := viridxa.length
  let dx : Matrix (Fin (nmo + nmo)) (Fin (nmo + nmo)) ℝ := fun p q =>
    if hp : p.val < nmo then
      if q.val < nmo then 0
      else
        match viridxa.findIdx? (fun r => decide (r = (⟨p.val, hp⟩ : Fin nmo))),
              occidxb.findIdx?
                (fun r => decide (r.val = q.val - nmo)) with
        | some i, some j => ((v.getD (i * noccb + j) 0 : ℚ) : ℝ)
        | _, _ => 0
    else
      if hq : q.val < nmo then
        match viridxb.findIdx? (fun r => decide (r.val = p.val - nmo)),
              occidxa.findIdx? (fun r => decide (r = (⟨q.val, hq⟩ : Fin nmo))) with
        | some i, some j => ((v.getD (nvira * noccb + i * nocca + j) 0 : ℚ) : ℝ)
        | _, _ => 0
      else 0
  let u := expmat (dx - dx.transpose)
  let mo := blockDiag2 moa mob * u
  fun i j => mo i (uhfExtCol nmo nocca noccb j)

/-- Davidson arguments of the first (real→complex) call of `uhf_external`
(lines 634-642). -/
def uhfExtArgs1 (hop1 : RVec → RVec) (hdiag1 : RVec) (with_symmetry : Bool)
    (nroots : Nat) (tol : ℚ) : DavArgs :=
  ⟨hop1, initGuessH hdiag1 with_symmetry, mkPrecond hdiag1, tol, nroots⟩

/-- Davidson arguments of the second (UHF→GHF) call of `uhf_external`
(lines 649-657): guess and preconditioner are built from `hdiag2` — unlike
`rhf_external`, nothing of the first call flows into them. -/
def uhfExtArgs2 (hop2 : RVec → RVec) (hdiag2 : RVec) (with_symmetry : Bool)
    (nroots : Nat) (tol : ℚ) : DavArgs :=
  ⟨hop2, initGuessH hdiag2 with_symmetry, mkPrecond hdiag2, tol, nroots⟩

/-- `uhf_external(mf, ...)`, lines 629-684: the real→complex verdict
`stable1` is only logged; status and returned orbitals come from the
UHF→GHF channel. -/
noncomputable def uhf_external {nao nmo : Nat} (hop1 : RVec → RVec)
    (hdiag1 : RVec) (hop2 : RVec → RVec) (hdiag2 : RVec) (dav : Dav)
    (moa mob : Matrix (Fin nao) (Fin nmo) ℝ) (occa occb : Fin nmo → ℚ)
    (with_symmetry : Bool) (nroots : Nat) (tol : ℚ) :
    Except PyErr (Matrix (Fin (nao + nao)) (Fin (nmo + nmo)) ℝ × Bool) :=
  match davUnwrap nroots
      (dav (uhfExtArgs1 hop1 hdiag1 with_symmetry nroots tol)) with
  | .multi _ _ => .error .ambiguousTruthValue
  | .single e1 _v1 =>
    let _stable1 := ! decide (e1 < -1e-5)
    match davUnwrap nroots
        (dav (uhfExtArgs2 hop2 hdiag2 with_symmetry nroots tol)) with
    | .multi _ _ => .error .ambiguousTruthValue
    | .single e3 v =>
      let stable := ! decide (e3 < -1e-5)
      let mo := if stable then blockDiag2 moa mob
        else uhf_external_rotate moa mob occa occb v
      .ok (mo, stable)

/-- `rohf_external(mf, ...)`, lines 489-491: `raise NotImplementedError`. -/
def rohf_external {nao n : Nat} (_with_symmetry : Bool) (_nroots : Nat)
    (_tol : ℚ) : Except PyErr (Matrix (Fin nao) (Fin n) ℝ × Bool) :=
  .error .notImplementedError

/-- Return shape of the `<ref>_stability` dispatchers: `(mo_i, mo_e)`
without `return_status`, `(mo_i, mo_e, stable_i, stable_e)` with it
(`None` for channels not requested). -/
inductive StabRet (MO : Type) where
  | pair (mo_i mo_e : Option MO) : StabRet MO
  | quad (mo_i mo_e : Option MO) (stable_i stable_e : Option Bool) : StabRet MO

/-- `rohf_stability(mf, internal, external, ...)`, lines 163-207:
dispatches to `rohf_internal` and (raising) `rohf_external` according to
the channel flags. -/
noncomputable def rohf_stability {nao n : Nat} (g : RVec)
    (hop : RVec → List CQ) (hdiag : RVec) (dav : Dav)
    (mo_coeff : Matrix (Fin nao) (Fin n) ℝ) (mo_occ : Fin n → ℚ)
    (internal external return_status : Bool) (nroots : Nat) (tol : ℚ) :
    Except PyErr (StabRet (Matrix (Fin nao) (Fin n) ℝ)) := do
  if return_status then
    let pI ← if internal then
        (rohf_internal g hop hdiag dav mo_coeff mo_occ true nroots tol).map
          (fun p => ((some p.1 : Option (Matrix (Fin nao) (Fin n) ℝ)),
            (some p.2 : Option Bool)))
      else pure (none, none)
    let pE ← if external then
        (rohf_external true nroots tol :
            Except PyErr (Matrix (Fin nao) (Fin n) ℝ × Bool)).map
          (fun p => (some p.1, some p.2))
      else pure (none, none)
    return .quad pI.1 pE.1 pI.2 pE.2
  else
    let moI ← if internal then
        (rohf_internal g hop hdiag dav mo_coeff mo_occ true nroots tol).map
          (fun p => (some p.1 : Option (Matrix (Fin nao) (Fin n) ℝ)))
      else pure none
    let moE ← if external then
        (rohf_external true nroots tol :
            Except PyErr (Matrix (Fin nao) (Fin n) ℝ × Bool)).map
          (fun p => some p.1)
      else pure none
    return .pair moI moE

lemma rhf_external_char {nao n : Nat} (hop1 : RVec → RVec) (hdiag1 : RVec)
    (hop2 : RVec → RVec) (hdiag2 : RVec) (dav : Dav)
    (mo_coeff : Matrix (Fin nao) (Fin n) ℝ) (mo_occ : Fin n → ℚ)
    (ws : Bool) (nroots : Nat) (tol : ℚ) (e1 e3 : ℚ) (v1 v3 : RVec)
    (h1 : davUnwrap nroots (dav (rhfExtArgs1 hop1 hdiag1 ws nroots tol)) =
      .single e1 v1)
    (h2 : davUnwrap nroots (dav (rhfExtArgs2 hop2 hdiag2 v1 nroots tol)) =
      .single e3 v3) :
    rhf_external hop1 hdiag1 hop2 hdiag2 dav mo_coeff mo_occ ws nroots tol =
      .ok (if e3 < -1e-5 then (rotate_mo mo_coeff mo_occ v3, mo_coeff)
          else (mo_coeff, mo_coeff),
        ! decide (e3 < -1e-5)) := by
  simp only [rhf_external, h1, h2]
  by_cases hc : e3 < -1e-5 <;> simp [hc]

lemma uhf_external_char {nao nmo : Nat} (hop1 : RVec → RVec) (hdiag1 : RVec)
    (hop2 : RVec → RVec) (hdiag2 : RVec) (dav : Dav)
    (moa mob : Matrix (Fin nao) (Fin nmo) ℝ) (occa occb : Fin nmo → ℚ)
    (ws : Bool) (nroots : Nat) (tol : ℚ) (e1 e3 : ℚ) (v1 v3 : RVec)
    (h1 : davUnwrap nroots (dav (uhfExtArgs1 hop1 hdiag1 ws nroots tol)) =
      .single e1 v1)
    (h2 : davUnwrap nroots (dav (uhfExtArgs2 hop2 hdiag2 ws nroots tol)) =
      .single e3 v3) :
    uhf_external hop1 hdiag1 hop2 hdiag2 dav moa mob occa occb ws nroots tol =
      .ok (if e3 < -1e-5 then uhf_external_rotate moa mob occa occb v3
          else blockDiag2 moa mob,
        ! decide (e3 < -1e-5)) := by
  simp only [uhf_external, h1, h2]
  by_cases hc : e3 < -1e-5 <;> simp [hc]

/-! ### Claims C1, C2, C5 -/

/-- Claim C1: for every stability channel, the verdict computed from the
lowest eigenvalue `e` returned by the Davidson solver is
`stable = not (e < -1e-5)`; an eigenvalue of 0 or any small positive value
is classified stable, one below `-1e-5` unstable.  Covered channels:
`rhf_internal`, `rohf_internal`, `uhf_internal`, `ghf_real`, `ghf_complex`,
`dhf_stability` (internal verdicts), `rhf_external` and `uhf_external`
(reference-extension verdicts, from the second Davidson call). -/
theorem stable_verdict_is_eigenvalue_threshold {nao n : Nat}
    (g : RVec) (hop : RVec → List CQ) (hdiag : RVec) (dav : Dav)
    (moS : Matrix (Fin nao) (Fin n) ℝ) (occS : Fin n → ℚ)
    (moP : Matrix (Fin nao) (Fin n) ℝ × Matrix (Fin nao) (Fin n) ℝ)
    (occP : (Fin n → ℚ) × (Fin n → ℚ))
    (hop_r2c : RVec → RVec) (hdiag_r2c : RVec)
    (hopC : RVec → RVec) (hdC : RVec)
    (hop1 hop2 hop1u hop2u : RVec → RVec) (hd1 hd2 hd1u hd2u : RVec)
    (moa mob : Matrix (Fin nao) (Fin n) ℝ) (occa occb : Fin n → ℚ)
    (ws : Bool) (nroots : Nat) (tol : ℚ)
    (e e2g eC eD e1 e3 eu1 eu3 : ℚ) (v v2g vC vD v1 v3 vu1 vu3 : RVec)
    (h : davUnwrap nroots
      (dav (gen_internal_davargs g hop hdiag ws nroots tol)) = .single e v)
    (hg2 : davUnwrap nroots
      (dav (ghf_r2c_davargs hop_r2c hdiag_r2c ws nroots tol)) = .single e2g v2g)
    (hC : davUnwrap nroots
      (dav (ghf_complex_davargs hopC hdC nroots tol)) = .single eC vC)
    (hD : dav (dhf_davargs g hop hdiag nroots tol) = .single eD vD)
    (hx1 : davUnwrap nroots
      (dav (rhfExtArgs1 hop1 hd1 ws nroots tol)) = .single e1 v1)
    (hx2 : davUnwrap nroots
      (dav (rhfExtArgs2 hop2 hd2 v1 nroots tol)) = .single e3 v3)
    (hu1 : davUnwrap nroots
      (dav (uhfExtArgs1 hop1u hd1u ws nroots tol)) = .single eu1 vu1)
    (hu2 : davUnwrap nroots
      (dav (uhfExtArgs2 hop2u hd2u ws nroots tol)) = .single eu3 vu3) :
    (∃ mo, rhf_internal g hop hdiag dav moS occS ws nroots tol =
      .ok (mo, ! decide (e < -1e-5))) ∧
    (∃ mo, rohf_internal g hop hdiag dav moS occS ws nroots tol =
      .ok (mo, ! decide (e < -1e-5))) ∧
    (∃ mo, uhf_internal g hop hdiag dav moP occP ws nroots tol =
      .ok (mo, ! decide (e < -1e-5))) ∧
    (∃ mo, ghf_real g hop hdiag hop_r2c hdiag_r2c dav moS occS ws nroots tol =
      .ok (mo, ! decide (e < -1e-5))) ∧
    (∃ mo, ghf_complex hopC hdC dav moS occS nroots tol =
      .ok (mo, ! decide (eC < -1e-5))) ∧
    (∃ mo, dhf_stability g hop hdiag dav moS occS nroots tol =
      .ok (mo, ! decide (eD < -1e-5))) ∧
    (∃ mo, rhf_external hop1 hd1 hop2 hd2 dav moS occS ws nroots tol =
      .ok (mo, ! decide (e3 < -1e-5))) ∧
    (∃ mo, uhf_external hop1u hd1u hop2u hd2u dav moa mob occa occb ws nroots tol =
      .ok (mo, ! decide (eu3 < -1e-5))) := by
  exact ⟨⟨_, rhf_internal_char g hop hdiag dav moS occS ws nroots tol e v h⟩,
    ⟨_, rohf_internal_char g hop hdiag dav moS occS ws nroots tol e v h⟩,
    ⟨_, uhf_internal_char g hop hdiag dav moP occP ws nroots tol e v h⟩,
    ⟨_, ghf_real_char g hop hdiag hop_r2c hdiag_r2c dav moS occS ws nroots tol
      e e2g v v2g h hg2⟩,
    ⟨_, ghf_complex_char hopC hdC dav moS occS nroots tol eC vC hC⟩,
    ⟨_, dhf_stability_char g hop hdiag dav moS occS nroots tol eD vD hD⟩,
    ⟨_, rhf_external_char hop1 hd1 hop2 hd2 dav moS occS ws nroots tol
      e1 e3 v1 v3 hx1 hx2⟩,
    ⟨_, uhf_external_char hop1u hd1u hop2u hd2u dav moa mob occa occb ws nroots
      tol eu1 eu3 vu1 vu3 hu1 hu2⟩⟩

/-- Witness for C1 at a concrete input (the `rhf_internal` conjunct, with a
Davidson oracle returning eigenvalue 0). -/
theorem stable_verdict_is_eigenvalue_threshold_witness :
    ∃ mo, rhf_internal [0] (fun u => u.map (fun q => (q, 0))) [1]
        (fun _ => .single 0 [0]) (0 : Matrix (Fin 1) (Fin 1) ℝ)
        (fun _ => 2) true 1 0 =
      .ok (mo, ! decide ((0 : ℚ) < -1e-5)) := by
  exact (stable_verdict_is_eigenvalue_threshold [0]
    (fun u => u.map (fun q => (q, 0))) [1] (fun _ => .single 0 [0])
    (0 : Matrix (Fin 1) (Fin 1) ℝ) (fun _ => 2) (0, 0) (fun _ => 2, fun _ => 0)
    id [1] id [1] id id id id [1] [1] [1] [1]
    (0 : Matrix (Fin 1) (Fin 1) ℝ) 0 (fun _ => 2) (fun _ => 0) true 1 0
    0 0 0 0 0 0 0 0 [0] [0] [0] [0] [0] [0] [0] [0]
    rfl rfl rfl rfl rfl rfl rfl rfl).1

/-- Claim C2: for every internal-channel stability call on a solution whose
lowest internal eigenvalue is `≥ -1e-5` (stable), the returned orbital set
is exactly the input coefficient matrix `mf.mo_coeff`, unchanged (a rotated
set is produced only in the unstable branch).  Covered: `rhf_internal`,
`rohf_internal`, `uhf_internal`, `ghf_real`, `ghf_complex`,
`dhf_stability`. -/
theorem stable_returns_input_orbitals {nao n : Nat}
    (g : RVec) (hop : RVec → List CQ) (hdiag : RVec) (dav : Dav)
    (moS : Matrix (Fin nao) (Fin n) ℝ) (occS : Fin n → ℚ)
    (moP : Matrix (Fin nao) (Fin n) ℝ × Matrix (Fin nao) (Fin n) ℝ)
    (occP : (Fin n → ℚ) × (Fin n → ℚ))
    (hop_r2c : RVec → RVec) (hdiag_r2c : RVec)
    (hopC : RVec → RVec) (hdC : RVec)
    (ws : Bool) (nroots : Nat) (tol : ℚ)
    (e e2g eC eD : ℚ) (v v2g vC vD : RVec)
    (h : davUnwrap nroots
      (dav (gen_internal_davargs g hop hdiag ws nroots tol)) = .single e v)
    (hg2 : davUnwrap nroots
      (dav (ghf_r2c_davargs hop_r2c hdiag_r2c ws nroots tol)) = .single e2g v2g)
    (hC : davUnwrap nroots
      (dav (ghf_complex_davargs hopC hdC nroots tol)) = .single eC vC)
    (hD : dav (dhf_davargs g hop hdiag nroots tol) = .single eD vD)
    (he : ¬ (e < -1e-5)) (heC : ¬ (eC < -1e-5)) (heD : ¬ (eD < -1e-5)) :
    rhf_internal g hop hdiag dav moS occS ws nroots tol = .ok (moS, true) ∧
    rohf_internal g hop hdiag dav moS occS ws nroots tol = .ok (moS, true) ∧
    uhf_internal g hop hdiag dav moP occP ws nroots tol = .ok (moP, true) ∧
    ghf_real g hop hdiag hop_r2c hdiag_r2c dav moS occS ws nroots tol =
      .ok (moS, true) ∧
    ghf_complex hopC hdC dav moS occS nroots tol = .ok (moS, true) ∧
    dhf_stability g hop hdiag dav moS occS nroots tol = .ok (moS, true) := by
  refine ⟨?_, ?_, ?_, ?_, ?_, ?_⟩
  · rw [rhf_internal_char g hop hdiag dav moS occS ws nroots tol e v h,
      if_neg he, decide_eq_false he]
    rfl
  · rw [rohf_internal_char g hop hdiag dav moS occS ws nroots tol e v h,
      if_neg he, decide_eq_false he]
    rfl
  · rw [uhf_internal_char g hop hdiag dav moP occP ws nroots tol e v h,
      if_neg he, decide_eq_false he]
    rfl
  · rw [ghf_real_char g hop hdiag hop_r2c hdiag_r2c dav moS occS ws nroots tol
      e e2g v v2g h hg2, if_neg he, decide_eq_false he]
    rfl
  · rw [ghf_complex_char hopC hdC dav moS occS nroots tol eC vC hC,
      if_neg heC, decide_eq_false heC]
    rfl
  · rw [dhf_stability_char g hop hdiag dav moS occS nroots tol eD vD hD,
      if_neg heD, decide_eq_false heD]
    rfl

/-- Witness for C2 at a concrete input (the `rhf_internal` conjunct, with
eigenvalue exactly `-1e-5`, which is not `< -1e-5`, hence stable). -/
theorem stable_returns_input_orbitals_witness :
    rhf_internal [0] (fun u => u.map (fun q => (q, 0))) [1]
        (fun _ => .single (-1e-5) [0]) (0 : Matrix (Fin 1) (Fin 1) ℝ)
        (fun _ => 2) true 1 0 =
      .ok ((0 : Matrix (Fin 1) (Fin 1) ℝ), true) := by
  exact (stable_returns_input_orbitals [0] (fun u => u.map (fun q => (q, 0)))
    [1] (fun _ => .single (-1e-5) [0]) (0 : Matrix (Fin 1) (Fin 1) ℝ)
    (fun _ => 2) (0, 0) (fun _ => 2, fun _ => 0) id [1] id [1] true 1 0
    (-1e-5) (-1e-5) (-1e-5) (-1e-5) [0] [0] [0] [0] rfl rfl rfl rfl
    (lt_irrefl _) (lt_irrefl _) (lt_irrefl _)).1

lemma map_double_comm (l : RVec) :
    l.map (fun d => d * 2) = l.map (fun d => 2 * d) :=
  List.map_congr_left (fun a _ => mul_comm a 2)

/-- Claim C5: for every internal-channel builder (the channels wrapping the
virtual-occupied-block oracle `gen_g_hop_*`: `rhf_internal`,
`rohf_internal`, `uhf_internal`, the internal block of `ghf_real`, and
`dhf_stability`), the effective operator handed to the eigensolver applied
to a trial vector `x` is `2 * Re (hop x)` (entrywise), and the diagonal the
preconditioner divides by is the raw diagonal multiplied by 2. -/
theorem internal_operator_and_diagonal_doubled (g : RVec)
    (hop : RVec → List CQ) (hdiag : RVec) (ws : Bool) (nroots : Nat)
    (tol : ℚ) (x : RVec) :
    (gen_internal_davargs g hop hdiag ws nroots tol).aop x =
      (hop x).map (fun c => 2 * CQre c) ∧
    (gen_internal_davargs g hop hdiag ws nroots tol).pc =
      mkPrecond (hdiag.map (fun d => 2 * d)) ∧
    (dhf_davargs g hop hdiag nroots tol).aop x =
      (hop x).map (fun c => 2 * CQre c) ∧
    (dhf_davargs g hop hdiag nroots tol).pc =
      mkPrecond (hdiag.map (fun d => 2 * d)) := by
  refine ⟨?_, ?_, ?_, ?_⟩
  · exact List.map_congr_left (fun c _ => mul_comm (CQre c) 2)
  · exact congrArg mkPrecond (map_double_comm hdiag)
  · exact List.map_congr_left (fun c _ => mul_comm (CQre c) 2)
  · exact congrArg mkPrecond (map_double_comm hdiag)

/-! ### Claims C4, C7, C10 -/

/-- Claim C4: for every restricted-open-shell input, requesting the external
stability channel — `rohf_external` directly, or `rohf_stability` with
`external=True` (any combination of the other flags) — fails immediately
with the unsupported-operation error (`NotImplementedError`); it never
silently falls back to an internal-only result.  The hypothesis `hint` is
the Davidson-solver contract for the internal call that may legitimately
run first when `internal=True`. -/
theorem rohf_external_unsupported {nao n : Nat} (g : RVec)
    (hop : RVec → List CQ) (hdiag : RVec) (dav : Dav)
    (mo_coeff : Matrix (Fin nao) (Fin n) ℝ) (mo_occ : Fin n → ℚ)
    (internal return_status ws : Bool) (nroots : Nat) (tol : ℚ)
    (hint : internal = true → ∃ p,
      rohf_internal g hop hdiag dav mo_coeff mo_occ true nroots tol = .ok p) :
    rohf_stability g hop hdiag dav mo_coeff mo_occ internal true
      return_status nroots tol = .error .notImplementedError ∧
    (@rohf_external nao n ws nroots tol) = .error .notImplementedError := by
  refine ⟨?_, rfl⟩
  cases hrs : return_status <;> cases hin : internal
  · rfl
  · obtain ⟨p, hp⟩ := hint hin
    simp only [rohf_stability, hp]
    rfl
  · rfl
  · obtain ⟨p, hp⟩ := hint hin
    simp only [rohf_stability, hp]
    rfl

/-- Witness for C4 at a concrete input (`internal=True`,
`return_status=True`). -/
theorem rohf_external_unsupported_witness :
    rohf_stability [0] (fun u => u.map (fun q => (q, 0))) [1]
        (fun _ => .single 0 [0]) (0 : Matrix (Fin 1) (Fin 1) ℝ)
        (fun _ => 2) true true true 1 0 =
      .error .notImplementedError := by
  exact (rohf_external_unsupported [0] (fun u => u.map (fun q => (q, 0))) [1]
    (fun _ => .single 0 [0]) (0 : Matrix (Fin 1) (Fin 1) ℝ) (fun _ => 2)
    true true true 1 0 (fun _ => ⟨_, rfl⟩)).1

/-- Claim C7 (code bug in `dhf_stability`): with `nroots = 3` (the module
default `STAB_NROOTS`) and the Davidson solver returning the ascending
eigenvalues `[-1, 0, 1]` with eigenvectors `[[5], [6], [7]]`:
`rhf_internal` unwraps index 0 as the claim states (it thresholds `-1` and
rotates along `[5]`), and with `nroots = 1` a scalar result is used
directly; but `dhf_stability`, whose source lacks the
`if nroots != 1: e, v = e[0], v[0]` unwrap, instead uses the whole
eigenvalue array in the boolean context `if e < -1e-5:`, raising numpy's
ambiguous-truth-value `ValueError`. -/
theorem dhf_missing_multiroot_unwrap :
    rhf_internal [0] (fun u => u.map (fun q => (q, 0))) [1]
        (fun _ => .multi [-1, 0, 1] [[5], [6], [7]])
        (0 : Matrix (Fin 1) (Fin 1) ℝ) (fun _ => 2) true 3 0 =
      .ok (rotate_mo (0 : Matrix (Fin 1) (Fin 1) ℝ) (fun _ => 2) [5],
        false) ∧
    rhf_internal [0] (fun u => u.map (fun q => (q, 0))) [1]
        (fun _ => .single (-1) [5])
        (0 : Matrix (Fin 1) (Fin 1) ℝ) (fun _ => 2) true 1 0 =
      .ok (rotate_mo (0 : Matrix (Fin 1) (Fin 1) ℝ) (fun _ => 2) [5],
        false) ∧
    dhf_stability [0] (fun u => u.map (fun q => (q, 0))) [1]
        (fun _ => .multi [-1, 0, 1] [[5], [6], [7]])
        (0 : Matrix (Fin 1) (Fin 1) ℝ) (fun _ => 2) 3 0 =
      .error .ambiguousTruthValue := by
  have hlt : ((-1 : ℚ) < -1e-5) := by norm_num
  refine ⟨?_, ?_, rfl⟩
  · rw [rhf_internal_char [0] (fun u => u.map (fun q => (q, 0))) [1]
      (fun _ => .multi [-1, 0, 1] [[5], [6], [7]])
      (0 : Matrix (Fin 1) (Fin 1) ℝ) (fun _ => 2) true 3 0 (-1) [5] rfl,
      if_pos hlt, decide_eq_true hlt]
    rfl
  · rw [rhf_internal_char [0] (fun u => u.map (fun q => (q, 0))) [1]
      (fun _ => .single (-1) [5])
      (0 : Matrix (Fin 1) (Fin 1) ℝ) (fun _ => 2) true 1 0 (-1) [5] rfl,
      if_pos hlt, decide_eq_true hlt]
    rfl

/-- Claim C10: for RHF and UHF external-stability calls, the returned
status and orbital set reflect only the reference-extension channel: two
Davidson oracles whose first (real→complex) calls deliver arbitrary,
different eigenvalues (same eigenvector for RHF, where it seeds the second
call) and that agree on the second (extension-channel) call produce
identical return values — the first-channel verdict only reaches the log. -/
theorem external_return_ignores_real2complex {nao n nmo : Nat}
    (hop1 hop2 hop1u hop2u : RVec → RVec) (hd1 hd2 hd1u hd2u : RVec)
    (dav dav' : Dav)
    (moS : Matrix (Fin nao) (Fin n) ℝ) (occS : Fin n → ℚ)
    (moa mob : Matrix (Fin nao) (Fin nmo) ℝ) (occa occb : Fin nmo → ℚ)
    (ws : Bool) (nroots : Nat) (tol : ℚ)
    (e1 e1' eu1 eu1' : ℚ) (v1 vu1 vu1' : RVec)
    (h1 : davUnwrap nroots (dav (rhfExtArgs1 hop1 hd1 ws nroots tol)) =
      .single e1 v1)
    (h1' : davUnwrap nroots (dav' (rhfExtArgs1 hop1 hd1 ws nroots tol)) =
      .single e1' v1)
    (h2 : dav (rhfExtArgs2 hop2 hd2 v1 nroots tol) =
      dav' (rhfExtArgs2 hop2 hd2 v1 nroots tol))
    (hu1 : davUnwrap nroots (dav (uhfExtArgs1 hop1u hd1u ws nroots tol)) =
      .single eu1 vu1)
    (hu1' : davUnwrap nroots (dav' (uhfExtArgs1 hop1u hd1u ws nroots tol)) =
      .single eu1' vu1')
    (hu2 : dav (uhfExtArgs2 hop2u hd2u ws nroots tol) =
      dav' (uhfExtArgs2 hop2u hd2u ws nroots tol)) :
    rhf_external hop1 hd1 hop2 hd2 dav moS occS ws nroots tol =
      rhf_external hop1 hd1 hop2 hd2 dav' moS occS ws nroots tol ∧
    uhf_external hop1u hd1u hop2u hd2u dav moa mob occa occb ws nroots tol =
      uhf_external hop1u hd1u hop2u hd2u dav' moa mob occa occb ws nroots
        tol := by
  constructor
  · simp only [rhf_external, h1, h1', h2]
  · simp only [uhf_external, hu1, hu1', hu2]

/-- Witness for C10 at a concrete input (the RHF conjunct): the two oracles
answer the first-channel call with eigenvalues `-1` (an instability) and
`1` (stable) respectively, agree on the second-channel call, and the
returned values coincide. -/
theorem external_return_ignores_real2complex_witness :
    rhf_external id [1] id [1]
        (fun a => if a.x0.length = 2 then DavResult.single 0 [9]
          else DavResult.single (-1) [7, 8])
        (0 : Matrix (Fin 1) (Fin 1) ℝ) (fun _ => 2) true 1 0 =
      rhf_external id [1] id [1]
        (fun a => if a.x0.length = 2 then DavResult.single 0 [9]
          else DavResult.single 1 [7, 8])
        (0 : Matrix (Fin 1) (Fin 1) ℝ) (fun _ => 2) true 1 0 := by
  exact (external_return_ignores_real2complex id id id id [1] [1] [1] [1, 1]
    (fun a => if a.x0.length = 2 then DavResult.single 0 [9]
      else DavResult.single (-1) [7, 8])
    (fun a => if a.x0.length = 2 then DavResult.single 0 [9]
      else DavResult.single 1 [7, 8])
    (0 : Matrix (Fin 1) (Fin 1) ℝ) (fun _ => 2)
    (0 : Matrix (Fin 1) (Fin 1) ℝ) (0 : Matrix (Fin 1) (Fin 1) ℝ)
    (fun _ => 2) (fun _ => 0) true 1 0
    (-1) 1 (-1) 1 [7, 8] [7, 8] [7, 8]
    rfl rfl rfl rfl rfl rfl).1

/-! ### External-channel Hessian-vector operators (claim C6)

The closures `hop_real2complex` (inside `_gen_hop_rhf_external`,
lines 379-394) and `hop_uhf2ghf` (inside `_gen_hop_uhf_external`,
lines 604-624) are embedded with their captured tensors (Fock blocks,
orbital blocks, symmetry mask, response function) as parameters; the flat
trial vector is kept in its (virtual × occupied) matrix shape (`ravel` /
`reshape` are inverse relabelings).  `symOn` stands for the source's
condition `with_symmetry and mol.symmetry`. -/

/-- A complex (`nrow × ncol`) matrix. -/
abbrev CMat (m n : Nat) := Matrix (Fin m) (Fin n) CQ

/-- Complex matrix product (`numpy.dot` / the corresponding `einsum`s). -/
def mmulC {m k n : Nat} (A : CMat m k) (B : CMat k n) : CMat m n :=
  fun i j => ∑ t, cqMul (A i t) (B t j)

/-- Conjugate transpose (`.conj().T`). -/
def conjT {m n : Nat} (A : CMat m n) : CMat n m :=
  fun i j => CQconj (A j i)

/-- Plain transpose (`.T`, no conjugation). -/
def transpC {m n : Nat} (A : CMat m n) : CMat n m :=
  fun i j => A j i

/-- Scalar multiple of a complex matrix (e.g. `x1*2`). -/
def smulC {m n : Nat} (c : ℚ) (A : CMat m n) : CMat m n :=
  fun i j => (c * (A i j).1, c * (A i j).2)

/-- Entrywise real part (`.real`). -/
def reM {m n : Nat} (A : CMat m n) : Matrix (Fin m) (Fin n) ℚ :=
  fun i j => (A i j).1

/-- `x[sym_forbid] = 0`: zero the symmetry-forbidden entries. -/
def maskM {m n : Nat} (forbid : Fin m → Fin n → Bool) (A : CMat m n) :
    CMat m n :=
  fun i j => if forbid i j then 0 else A i j

/-- `hop_real2complex(x1)` of `_gen_hop_rhf_external`: zero the forbidden
entries of the trial vector, form the one-electron commutator
`fvv·x1 - x1·foo`, contract the anti-Hermitian density perturbation
`d1 - d1ᴴ` (with `d1 = orbv·(2 x1)·orboᴴ`) through the `hermi=2` response,
add its (virtual,occupied) block, and zero the forbidden output entries. -/
def hop_real2complex {nao nocc nvir : Nat} (symOn : Bool)
    (sym_forbid : Fin nvir → Fin nocc → Bool)
    (fvv : CMat nvir nvir) (foo : CMat nocc nocc)
    (orbv : CMat nao nvir) (orbo : CMat nao nocc)
    (vrespz : CMat nao nao → CMat nao nao) (x1 : CMat nvir nocc) :
    CMat nvir nocc :=
  let x1 := if symOn then maskM sym_forbid x1 else x1
  let x2 := mmulC fvv x1 - mmulC x1 foo
  let d1 := mmulC (mmulC orbv (smulC 2 x1)) (conjT orbo)
  let dm1 := d1 - conjT d1
  let v1 := vrespz dm1
  let x2 := x2 + mmulC (mmulC (conjT orbv) v1) orbo
  if symOn then maskM sym_forbid x2 else x2

/-- `hop_uhf2ghf(x1)` of `_gen_hop_uhf_external`: the trial vector is the
pair of cross-spin blocks `(x1ab : nvira × noccb, x1ba : nvirb × nocca)`;
the density perturbation pair `(d1ab + d1baᴴ, d1ba + d1abᴴ)` goes through
the `hermi=0, with_j=False` response; only the real part of the result is
kept, and forbidden entries are zeroed on input and output. -/
def hop_uhf2ghf {nao nocca noccb nvira nvirb : Nat} (symOn : Bool)
    (sym_forbidab : Fin nvira → Fin noccb → Bool)
    (sym_forbidba : Fin nvirb → Fin nocca → Bool)
    (fvva : CMat nvira nvira) (fvvb : CMat nvirb nvirb)
    (fooa : CMat nocca nocca) (foob : CMat noccb noccb)
    (orbva : CMat nao nvira) (orbvb : CMat nao nvirb)
    (orboa : CMat nao nocca) (orbob : CMat nao noccb)
    (vresp1 : CMat nao nao × CMat nao nao → CMat nao nao × CMat nao nao)
    (x1ab : CMat nvira noccb) (x1ba : CMat nvirb nocca) :
    Matrix (Fin nvira) (Fin noccb) ℚ × Matrix (Fin nvirb) (Fin nocca) ℚ :=
  let x1ab := if symOn then maskM sym_forbidab x1ab else x1ab
  let x1ba := if symOn then maskM sym_forbidba x1ba else x1ba
  let x2ab := mmulC fvva x1ab - mmulC x1ab foob
  let x2ba := mmulC fvvb x1ba - mmulC x1ba (transpC fooa)
  let d1ab := mmulC (mmulC orbva x1ab) (conjT orbob)
  let d1ba := mmulC (mmulC orbvb x1ba) (conjT orboa)
  let dm1 := (d1ab + conjT d1ba, d1ba + conjT d1ab)
  let v1 := vresp1 dm1
  let x2ab := x2ab + mmulC (mmulC (conjT orbva) v1.1) orbob
  let x2ba := x2ba + mmulC (mmulC (conjT orbvb) v1.2) orboa
  if symOn then
    (fun i j => if sym_forbidab i j then 0 else reM x2ab i j,
     fun i j => if sym_forbidba i j then 0 else reM x2ba i j)
  else (reM x2ab, reM x2ba)

lemma cqMul_zero_right (a : CQ) : cqMul a 0 = 0 := by
  simp [cqMul, Prod.ext_iff]

lemma cqMul_zero_left (a : CQ) : cqMul 0 a = 0 := by
  simp [cqMul, Prod.ext_iff]

lemma mmulC_zero_right {m k n : Nat} (A : CMat m k) :
    mmulC A (0 : CMat k n) = 0 := by
  funext i j
  simp [mmulC, cqMul_zero_right, Matrix.zero_apply]

lemma mmulC_zero_left {m k n : Nat} (B : CMat k n) :
    mmulC (0 : CMat m k) B = 0 := by
  funext i j
  simp [mmulC, cqMul_zero_left, Matrix.zero_apply]

lemma conjT_zero {m n : Nat} : conjT (0 : CMat m n) = 0 := by
  funext i j
  simp [conjT, CQconj, Matrix.zero_apply, Prod.ext_iff]

lemma smulC_zero {m n : Nat} (c : ℚ) : smulC c (0 : CMat m n) = 0 := by
  funext i j
  simp [smulC, Matrix.zero_apply, Prod.ext_iff]

lemma reM_zero {m n : Nat} : reM (0 : CMat m n) = 0 := by
  funext i j
  simp [reM, Matrix.zero_apply]

lemma maskM_zero {m n : Nat} (f : Fin m → Fin n → Bool) :
    maskM f (0 : CMat m n) = 0 := by
  funext i j
  simp [maskM, Matrix.zero_apply]

lemma maskM_of_forbid_support {m n : Nat} (f : Fin m → Fin n → Bool)
    (A : CMat m n) (h : ∀ i j, f i j = false → A i j = 0) :
    maskM f A = 0 := by
  funext i j
  by_cases hf : f i j
  · simp [maskM, hf]
  · simp only [maskM, Bool.not_eq_true] at hf ⊢
    rw [if_neg (by simp [hf]), h i j hf]
    rfl

/-- Claim C6: with symmetry enabled, the external-channel Hessian-vector
operators annihilate every trial vector supported on symmetry-forbidden
entries (given that the response function maps the zero density
perturbation to the zero potential), and every output entry at a
symmetry-forbidden position is zero for an arbitrary trial vector — for
both `hop_real2complex` (RHF) and `hop_uhf2ghf` (UHF). -/
theorem symmetry_forbidden_projection {nao nocc nvir nocca noccb nvira nvirb : Nat}
    (sym_forbid : Fin nvir → Fin nocc → Bool)
    (fvv : CMat nvir nvir) (foo : CMat nocc nocc)
    (orbv : CMat nao nvir) (orbo : CMat nao nocc)
    (vrespz : CMat nao nao → CMat nao nao) (x1 : CMat nvir nocc)
    (sym_forbidab : Fin nvira → Fin noccb → Bool)
    (sym_forbidba : Fin nvirb → Fin nocca → Bool)
    (fvva : CMat nvira nvira) (fvvb : CMat nvirb nvirb)
    (fooa : CMat nocca nocca) (foob : CMat noccb noccb)
    (orbva : CMat nao nvira) (orbvb : CMat nao nvirb)
    (orboa : CMat nao nocca) (orbob : CMat nao noccb)
    (vresp1 : CMat nao nao × CMat nao nao → CMat nao nao × CMat nao nao)
    (x1ab : CMat nvira noccb) (x1ba : CMat nvirb nocca)
    (hx : ∀ i j, sym_forbid i j = false → x1 i j = 0)
    (hv : vrespz 0 = 0)
    (hxab : ∀ i j, sym_forbidab i j = false → x1ab i j = 0)
    (hxba : ∀ i j, sym_forbidba i j = false → x1ba i j = 0)
    (hv2 : vresp1 (0, 0) = (0, 0)) :
    hop_real2complex true sym_forbid fvv foo orbv orbo vrespz x1 = 0 ∧
    (∀ (y : CMat nvir nocc) (i : Fin nvir) (j : Fin nocc),
      sym_forbid i j = true →
      hop_real2complex true sym_forbid fvv foo orbv orbo vrespz y i j = 0) ∧
    hop_uhf2ghf true sym_forbidab sym_forbidba fvva fvvb fooa foob
      orbva orbvb orboa orbob vresp1 x1ab x1ba = (0, 0) ∧
    (∀ (yab : CMat nvira noccb) (yba : CMat nvirb nocca),
      (∀ i j, sym_forbidab i j = true →
        (hop_uhf2ghf true sym_forbidab sym_forbidba fvva fvvb fooa foob
          orbva orbvb orboa orbob vresp1 yab yba).1 i j = 0) ∧
      (∀ i j, sym_forbidba i j = true →
        (hop_uhf2ghf true sym_forbidab sym_forbidba fvva fvvb fooa foob
          orbva orbvb orboa orbob vresp1 yab yba).2 i j = 0)) := by
  refine ⟨?_, ?_, ?_, ?_⟩
  · simp only [hop_real2complex, if_true, maskM_of_forbid_support sym_forbid x1 hx,
      mmulC_zero_right, mmulC_zero_left, smulC_zero, conjT_zero, sub_zero,
      sub_self, hv, add_zero, zero_add, maskM_zero]
  · intro y i j hij
    simp only [hop_real2complex, if_true, maskM, hij, ite_true]
  · simp only [hop_uhf2ghf, if_true,
      maskM_of_forbid_support sym_forbidab x1ab hxab,
      maskM_of_forbid_support sym_forbidba x1ba hxba,
      mmulC_zero_right, mmulC_zero_left, conjT_zero, sub_self, add_zero,
      zero_add, hv2, reM_zero]
    simp only [Prod.mk.injEq]
    constructor <;> funext i j <;> simp
  · intro yab yba
    constructor <;> intro i j hij <;>
      simp only [hop_uhf2ghf, if_true, hij, ite_true]

/-- Witness for C6 at a concrete input: one basis function, one occupied
and one virtual orbital per (needed) block, all pairs symmetry-forbidden,
trial vectors with the nonzero entry 1 in the forbidden position, and the
zero response function. -/
theorem symmetry_forbidden_projection_witness :
    hop_real2complex true (fun _ _ => true)
      (fun _ _ => (2, 0)) (fun _ _ => (3, 0)) (fun _ _ => (1, 0))
      (fun _ _ => (1, 0)) (fun _ => (0 : CMat 1 1))
      (fun _ _ => ((1 : ℚ), (0 : ℚ)) : CMat 1 1) = 0 := by
  exact (symmetry_forbidden_projection (fun _ _ => true)
    (fun _ _ => (2, 0)) (fun _ _ => (3, 0)) (fun _ _ => (1, 0))
    (fun _ _ => (1, 0)) (fun _ => (0 : CMat 1 1))
    (fun _ _ => ((1 : ℚ), (0 : ℚ)) : CMat 1 1)
    (fun _ _ => true) (fun _ _ => true)
    (fun _ _ => (2, 0)) (fun _ _ => (2, 0)) (fun _ _ => (3, 0))
    (fun _ _ => (3, 0)) (fun _ _ => (1, 0)) (fun _ _ => (1, 0))
    (fun _ _ => (1, 0)) (fun _ _ => (1, 0)) (fun _ => ((0 : CMat 1 1), (0 : CMat 1 1)))
    (fun _ _ => ((1 : ℚ), (0 : ℚ)) : CMat 1 1)
    (fun _ _ => ((1 : ℚ), (0 : ℚ)) : CMat 1 1)
    (fun i j h => absurd h (by simp)) rfl
    (fun i j h => absurd h (by simp))
    (fun i j h => absurd h (by simp)) rfl).1

end Stability
